import Mathlib

/-!
Verification of the real-time audio streaming and transcript-reconciliation
pipeline of the NSD-Specter browser client (`src/components/Generator.tsx`
and collaborators), as a shallow embedding in Lean 4.

Times on the audio output clock are modelled as rationals (the source uses
the floating-point `AudioContext.currentTime` seconds clock); machine
integers do not occur in the modelled fragment.
-/

namespace Spec2Proof

/-! ## Playback scheduler

Embeds `playAudioChunk` and `clearAudioQueue` from `Generator.tsx`
(lines 484-511, duplicated verbatim in the second component variant at
lines 1359-1391).  A `PlaybackEntry` records the start time and duration
an inbound chunk was scheduled with; the scheduler state is the
`nextPlayTime` cursor (`nextPlayTimeRef`) together with the list of live
entries (`audioQueueRef`). -/

structure PlaybackEntry where
  scheduledStart : ℚ
  duration : ℚ
deriving DecidableEq

structure SchedulerState where
  nextPlayTime : ℚ
  queue : List PlaybackEntry
deriving DecidableEq

/-- Initial scheduler state: `nextPlayTimeRef = useRef(0)`, empty queue. -/
def initScheduler : SchedulerState := ⟨0, []⟩

/-- `playAudioChunk` (Generator.tsx 484-505): `start = max(currentTime,
nextPlayTime)`, schedule the source at `start`, advance the cursor to
`start + duration`, push the entry.  `now` is the output clock's
`ctx.currentTime` observed at the call and `dur` the decoded buffer's
duration. -/
def playAudioChunk (now dur : ℚ) (s : SchedulerState) : SchedulerState :=
  let start := max now s.nextPlayTime
  { nextPlayTime := start + dur
    queue := s.queue ++ [⟨start, dur⟩] }

/-- `clearAudioQueue` (Generator.tsx 507-511): stop every queued source,
empty the queue, reset the cursor to the output clock's current time. -/
def clearAudioQueue (now : ℚ) (_s : SchedulerState) : SchedulerState :=
  { nextPlayTime := now, queue := [] }

/-- Run a sequence of enqueue calls; each element gives the output clock
value at the call and the decoded chunk's duration. -/
def runEnqueues (s : SchedulerState) : List (ℚ × ℚ) → SchedulerState
  | [] => s
  | (now, dur) :: rest => runEnqueues (playAudioChunk now dur s) rest

/-- The entries produced by a sequence of enqueues starting from cursor
position `c` (queue part of `runEnqueues`, made explicit for proofs). -/
def enqueueEntries (c : ℚ) : List (ℚ × ℚ) → List PlaybackEntry
  | [] => []
  | (now, dur) :: rest => ⟨max now c, dur⟩ :: enqueueEntries (max now c + dur) rest

/-- Final cursor position of a sequence of enqueues starting from cursor `c`. -/
def enqueueCursor (c : ℚ) : List (ℚ × ℚ) → ℚ
  | [] => c
  | (now, dur) :: rest => enqueueCursor (max now c + dur) rest

/-- The spec's claim that the `nextPlayTime` cursor never falls behind the
output clock, stated over enqueue traces: at the moment each call is made
(clock value `p.1`, state still the one produced by the earlier calls), the
cursor would have to be at least the clock. -/
def nextPlayTimeAlwaysAtLeastClock : Prop :=
  ∀ ops : List (ℚ × ℚ), List.Chain' (fun a b : ℚ × ℚ => a.1 ≤ b.1) ops →
    (∀ p ∈ ops, 0 ≤ p.2) →
    ∀ i p, ops[i]? = some p →
      p.1 ≤ (runEnqueues initScheduler (ops.take i)).nextPlayTime

/-! ## Transcript data model and thought-fencing filter

Embeds `TranscriptItem` (`src/types.ts`), `cleanTranscript`
(Generator.tsx 12-19, identical in the second variant at 848-860) and the
transcript reconciliation functions (591-620, 1528-1577).  JS strings are
modelled as `List Char`; the `audioChunks` field is optional because USER
items are created without it. -/

inductive Source where
  | USER
  | AI
deriving DecidableEq

structure TranscriptItem where
  id : ℤ
  source : Source
  text : List Char
  audioChunks : Option (List String)
  timestamp : ℤ
  isComplete : Bool
deriving DecidableEq

/-- JS `String.prototype.trim`: strip whitespace from both ends. -/
def trimChars (s : List Char) : List Char :=
  ((s.dropWhile Char.isWhitespace).reverse.dropWhile Char.isWhitespace).reverse

/-- JS `String.prototype.split` with a single-character separator:
`"a»b»c".split('»') = ["a","b","c"]`, always returning at least one part. -/
def jsSplitOnChar (sep : Char) : List Char → List (List Char)
  | [] => [[]]
  | c :: cs =>
      if c = sep then [] :: jsSplitOnChar sep cs
      else
        match jsSplitOnChar sep cs with
        | [] => [[c]]
        | p :: ps => (c :: p) :: ps

/-- `cleanTranscript` (Generator.tsx 12-19): empty input stays empty; with a
`'»'` delimiter present, keep the trimmed last split part; with no
delimiter, hide the whole text. -/
def cleanTranscript (text : List Char) : List Char :=
  if text = [] then []
  else if text.contains '»' then
    trimChars ((jsSplitOnChar '»' text).getLast?.getD [])
  else []

/-- Render projection (Generator.tsx 695): AI items display their cleaned
text, USER items display their raw text. -/
def displayedText (it : TranscriptItem) : List Char :=
  if it.source = Source.AI then cleanTranscript it.text else it.text

/-- JS truthiness of an optional string (`if (text)`): defined and
nonempty. -/
def jsTruthyText : Option (List Char) → Bool
  | none => false
  | some s => !s.isEmpty

/-- JS truthiness of an optional base64 chunk (`if (audioChunk)`). -/
def jsTruthyChunk : Option String → Bool
  | none => false
  | some s => !s.isEmpty

/-- `updateCurrentAiTranscript` (Generator.tsx 591-604): drop blank events;
mutate the tail item in place when it is an incomplete AI item, otherwise
append a fresh incomplete AI item.  `now` stands for the `Date.now()` value
at the call (used for both `id` and `timestamp`). -/
def updateCurrentAiTranscript (now : ℤ) (text : Option (List Char))
    (audioChunk : Option String) (prev : List TranscriptItem) : List TranscriptItem :=
  if ((match text with
       | none => true
       | some s => s.isEmpty || (trimChars s).isEmpty) && !jsTruthyChunk audioChunk) then
    prev
  else
    match prev.getLast? with
    | some last =>
        if last.source = Source.AI ∧ last.isComplete = false then
          let newText := if jsTruthyText text then last.text ++ text.getD [] else last.text
          let newChunks :=
            if jsTruthyChunk audioChunk then
              some ((last.audioChunks.getD []) ++ [audioChunk.getD ""])
            else last.audioChunks
          prev.dropLast ++ [{ last with text := newText, audioChunks := newChunks }]
        else
          prev ++ [{ id := now, source := Source.AI,
                     text := if jsTruthyText text then text.getD [] else [],
                     audioChunks := some (if jsTruthyChunk audioChunk
                                          then [audioChunk.getD ""] else []),
                     timestamp := now, isComplete := false }]
    | none =>
        prev ++ [{ id := now, source := Source.AI,
                   text := if jsTruthyText text then text.getD [] else [],
                   audioChunks := some (if jsTruthyChunk audioChunk
                                        then [audioChunk.getD ""] else []),
                   timestamp := now, isComplete := false }]

/-- `finalizeAiTranscript` (Generator.tsx 606-612): mark the tail item
complete when it is an AI item. -/
def finalizeAiTranscript (prev : List TranscriptItem) : List TranscriptItem :=
  match prev.getLast? with
  | some last =>
      if last.source = Source.AI then
        prev.dropLast ++ [{ last with isComplete := true }]
      else prev
  | none => prev

/-- `handleUserTranscript` (Generator.tsx 614-620): merge into the tail item
when it is a USER item whose timestamp is within 3000 ms of `now`, otherwise
append a fresh completed USER item. -/
def handleUserTranscript (now : ℤ) (text : List Char)
    (prev : List TranscriptItem) : List TranscriptItem :=
  match prev.getLast? with
  | some last =>
      if last.source = Source.USER ∧ now - last.timestamp < 3000 then
        prev.dropLast ++ [{ last with text := last.text ++ text }]
      else
        prev ++ [{ id := now, source := Source.USER, text := text,
                   audioChunks := none, timestamp := now, isComplete := true }]
  | none =>
      prev ++ [{ id := now, source := Source.USER, text := text,
                 audioChunks := none, timestamp := now, isComplete := true }]

/-- One inbound reconciliation event, as dispatched by the `onmessage`
handler (Generator.tsx 438-466). -/
inductive TEvent where
  | aiUpdate (now : ℤ) (text : Option (List Char)) (audioChunk : Option String)
  | aiFinalize
  | userText (now : ℤ) (text : List Char)

def applyEvent : TEvent → List TranscriptItem → List TranscriptItem
  | .aiUpdate now t c, s => updateCurrentAiTranscript now t c s
  | .aiFinalize, s => finalizeAiTranscript s
  | .userText now t, s => handleUserTranscript now t s

/-- Apply a sequence of reconciliation events in arrival order. -/
def runEvents (evs : List TEvent) (s : List TranscriptItem) : List TranscriptItem :=
  evs.foldl (fun st e => applyEvent e st) s

/-- Number of incomplete AI items in a transcript. -/
def countIncompleteAI (s : List TranscriptItem) : ℕ :=
  s.countP (fun it => decide (it.source = Source.AI) && !it.isComplete)

/-- Whether the tail item is an open (incomplete) AI item. -/
def tailOpenAI (s : List TranscriptItem) : Bool :=
  match s.getLast? with
  | some last => decide (last.source = Source.AI) && !last.isComplete
  | none => false

def isUserEvent : TEvent → Bool
  | .userText _ _ => true
  | _ => false

/-- Traces in which user partial-text events only arrive while no AI item is
open (the AI turn was finalized or interrupted first). -/
def UserEventsAfterClose : List TEvent → List TranscriptItem → Prop
  | [], _ => True
  | e :: rest, s =>
      (isUserEvent e = true → tailOpenAI s = false) ∧
      UserEventsAfterClose rest (applyEvent e s)

instance decUserEventsAfterClose : (evs : List TEvent) → (s : List TranscriptItem) →
    Decidable (UserEventsAfterClose evs s)
  | [], _ => isTrue trivial
  | e :: rest, s =>
      haveI : Decidable (UserEventsAfterClose rest (applyEvent e s)) :=
        decUserEventsAfterClose rest (applyEvent e s)
      inferInstanceAs (Decidable (_ ∧ _))

/-- Structural transcript invariant: every non-tail item is complete, and
every USER item is complete. -/
def TranscriptInv (s : List TranscriptItem) : Prop :=
  (∀ (i : ℕ) (it : TranscriptItem), i + 1 < s.length → s[i]? = some it →
      it.isComplete = true)
  ∧ (∀ it ∈ s, it.source = Source.USER → it.isComplete = true)

/-- Claim C4 as stated: in every state reachable by any interleaving of the
transcript operations, at most one incomplete AI item exists, and an item
whose `isComplete` flag is true is never mutated afterwards. -/
def c4AsStated : Prop :=
  (∀ evs : List TEvent, countIncompleteAI (runEvents evs []) ≤ 1)
  ∧ (∀ (s : List TranscriptItem) (e : TEvent) (i : ℕ) (it : TranscriptItem),
      s[i]? = some it → it.isComplete = true → (applyEvent e s)[i]? = some it)

/-! ## Capture pipeline, mute gating, text input, video frames, demo quota

Embeds `processor.onaudioprocess` (Generator.tsx 422-434 in the canonical
variant, 1251-1262 in the second variant), `handleTextInput` (513-527),
the `startFrameCapture` interval body (575-588) and the demo-quota
functions (356-367).  The helpers of `src/services/audioUtils.ts`
(`downsampleTo16k`, `createPcmBlob`) are not in the packed sources and are
modelled from the spec. -/

/-- Modelled from the spec: `downsampleTo16k` from the missing
`src/services/audioUtils.ts` (spec §4.2 `downsample`): no-op fast path when
the source already runs at the 16 kHz target, otherwise index-mapped
resampling preserving amplitude scale with output length
`len · 16000 / sourceRate`. -/
def downsampleTo16k (samples : List ℚ) (sourceRate : ℕ) : List ℚ :=
  if sourceRate = 16000 then samples
  else
    let newLen := samples.length * 16000 / sourceRate
    (List.range newLen).map (fun i => samples.getD (i * sourceRate / 16000) 0)

/-- Modelled from the spec: the PCM codec's per-sample step (spec §4.1
`encode`): clamp to `[-1, 1]`, scale to the signed 16-bit range. -/
def pcmEncodeSample (x : ℚ) : ℤ :=
  Int.floor (max (-1) (min 1 x) * 32767)

/-- Outbound audio wire chunk (`createPcmBlob`'s result), with the encoded
samples kept as integers in place of their base64 transport encoding. -/
structure EncodedMediaChunk where
  mimeType : String
  sampleData : List ℤ
deriving DecidableEq

/-- Modelled from the spec: `createPcmBlob` from the missing
`src/services/audioUtils.ts`: PCM-encode a float block and tag it with the
fixed 16 kHz input mime type (spec §6). -/
def createPcmBlob (samples : List ℚ) : EncodedMediaChunk :=
  ⟨"audio/pcm;rate=16000", samples.map pcmEncodeSample⟩

/-- Capture-tick context: the flags read live through refs at tick time
(`isMicOnRef`, `isDemoModeRef`, `turnCountRef`) and the input context's
sample rate. -/
structure CaptureCtx where
  isMicOn : Bool
  isDemoMode : Bool
  turnCount : ℕ
  sampleRate : ℕ
deriving DecidableEq

/-- `processor.onaudioprocess`, canonical variant (Generator.tsx 422-434):
gate on the live mic flag and the demo hard stop, then downsample the
captured block from the hardware rate to 16 kHz and PCM-encode it.
`none` means the tick emits nothing. -/
def onAudioProcess (ctx : CaptureCtx) (inputData : List ℚ) :
    Option EncodedMediaChunk :=
  if ctx.isMicOn = false then none
  else if ctx.isDemoMode = true ∧ 10 ≤ ctx.turnCount then none
  else some (createPcmBlob (downsampleTo16k inputData ctx.sampleRate))

/-- `processor.onaudioprocess`, second variant (Generator.tsx 1251-1262):
same gating, but the raw captured block is PCM-encoded directly, with no
per-tick resampling (its audio context runs at 24 kHz, line 1079-1081). -/
def onAudioProcessVariant2 (ctx : CaptureCtx) (inputData : List ℚ) :
    Option EncodedMediaChunk :=
  if ctx.isMicOn = false then none
  else if ctx.isDemoMode = true ∧ 10 ≤ ctx.turnCount then none
  else some (createPcmBlob inputData)

/-- A capture-loop event: the UI toggles the mute flag (synced into
`isMicOnRef` by the ref-sync effect, Generator.tsx 262), or a processing
tick fires. -/
inductive CapEvent where
  | setMic (b : Bool)
  | tick (inputData : List ℚ)

/-- Capture-loop state: the live flag plus every frame emitted so far.  The
pipeline keeps no frame queue: a gated tick emits nothing at all. -/
structure CapState where
  isMicOn : Bool
  emitted : List EncodedMediaChunk

def capStep (demoMode : Bool) (turnCount sampleRate : ℕ) :
    CapState → CapEvent → CapState
  | st, .setMic b => { st with isMicOn := b }
  | st, .tick inputData =>
      match onAudioProcess ⟨st.isMicOn, demoMode, turnCount, sampleRate⟩ inputData with
      | none => st
      | some chunk => { st with emitted := st.emitted ++ [chunk] }

def runCapture (demoMode : Bool) (turnCount sampleRate : ℕ)
    (evs : List CapEvent) (st : CapState) : CapState :=
  evs.foldl (capStep demoMode turnCount sampleRate) st

/-- Result of a text submission: the text payload handed to
`sendRealtimeInput` (if any) and the transcript afterwards. -/
structure TextInputResult where
  sent : Option (List Char)
  transcript : List TranscriptItem
deriving DecidableEq

/-- `handleTextInput` (Generator.tsx 513-527): demo hard stop first, then
the blank-input / no-session guard; in demo mode a query-count context
string is appended to the sent payload; the trimmed text is appended to the
transcript through `handleUserTranscript`. -/
def handleTextInput (isDemoMode : Bool) (turnCount : ℕ) (sessionLive : Bool)
    (now : ℤ) (textInput : List Char) (transcript : List TranscriptItem) :
    TextInputResult :=
  if isDemoMode = true ∧ 10 ≤ turnCount then ⟨none, transcript⟩
  else if trimChars textInput = [] ∨ sessionLive = false then ⟨none, transcript⟩
  else
    let txt := trimChars textInput
    if isDemoMode then
      ⟨some (txt ++ ("\n\n[SYSTEM: Query #" ++ toString (turnCount + 1) ++ "/10.]").data),
       handleUserTranscript now txt transcript⟩
    else ⟨some txt, handleUserTranscript now txt transcript⟩

/-- Outbound video frame chunk (base64 JPEG payload kept abstract). -/
structure VideoFrameChunk where
  mimeType : String
  data : String
deriving DecidableEq

/-- The `startFrameCapture` interval body (Generator.tsx 575-588): while a
session handle and a ready video element exist, send the current frame as a
JPEG chunk — with no demo-quota gate. -/
def videoFrameTick (sessionLive videoReady : Bool) (frame : String) :
    Option VideoFrameChunk :=
  if sessionLive = false ∨ videoReady = false then none
  else some ⟨"image/jpeg", frame⟩

/-- Claim C10 as stated: once the demo counter has reached 10, no input of
any kind is sent — audio ticks, text submissions, and (implicitly) any
other outbound traffic such as video-frame ticks. -/
def c10AsStated : Prop :=
  ∀ (micOn : Bool) (turnCount sampleRate : ℕ) (input : List ℚ) (now : ℤ)
    (textInput : List Char) (transcript : List TranscriptItem) (frame : String),
    10 ≤ turnCount →
    onAudioProcess ⟨micOn, true, turnCount, sampleRate⟩ input = none
    ∧ (handleTextInput true turnCount true now textInput transcript).sent = none
    ∧ videoFrameTick true true frame = none

/-- Demo-quota grace delay before teardown, in milliseconds
(Generator.tsx 366: `setTimeout(..., 15000)`). -/
def LOCKOUT_GRACE_MS : ℤ := 15000

/-- Demo-quota / lockout state: the turn counter (`turnCountRef`, mirrored
into `localStorage` under `nsd_demo_count`), the persisted lockout
timestamp (`nsd_demo_lock_time`), the pending teardown timers, and whether
`stopSession` has run. -/
structure DemoState where
  isDemoMode : Bool
  turnCount : ℕ
  lockTime : Option ℤ
  scheduledStops : List ℤ
  stopped : Bool
deriving DecidableEq

/-- `handleLockoutSequence` (Generator.tsx 364-367): persist the lockout
timestamp and schedule `stopSession` to run after the 15-second grace
delay; the session is not stopped at the call itself. -/
def handleLockoutSequence (now : ℤ) (st : DemoState) : DemoState :=
  { st with lockTime := some now,
            scheduledStops := st.scheduledStops ++ [now + LOCKOUT_GRACE_MS] }

/-- `incrementDemoCount` (Generator.tsx 356-362): no-op outside demo mode;
otherwise bump and persist the counter, entering the lockout path once the
new count reaches 10. -/
def incrementDemoCount (now : ℤ) (st : DemoState) : DemoState :=
  if st.isDemoMode = false then st
  else
    let newCount := st.turnCount + 1
    let st' := { st with turnCount := newCount }
    if 10 ≤ newCount then handleLockoutSequence now st' else st'

/-- The lockout check `startSession` performs (Generator.tsx 371-372): a
persisted lock timestamp less than an hour old. -/
def isLocked (now : ℤ) (st : DemoState) : Bool :=
  match st.lockTime with
  | some t => decide (now - t < 3600000)
  | none => false


theorem runEnqueues_eq (c : ℚ) (q : List PlaybackEntry) (ops : List (ℚ × ℚ)) :
    runEnqueues ⟨c, q⟩ ops = ⟨enqueueCursor c ops, q ++ enqueueEntries c ops⟩ := by
  induction ops generalizing c q with
  | nil => simp [runEnqueues, enqueueCursor, enqueueEntries]
  | cons p rest ih =>
      obtain ⟨now, dur⟩ := p
      simp only [runEnqueues, playAudioChunk, enqueueCursor, enqueueEntries]
      rw [ih]
      simp

theorem enqueueEntries_length (c : ℚ) (ops : List (ℚ × ℚ)) :
    (enqueueEntries c ops).length = ops.length := by
  induction ops generalizing c with
  | nil => rfl
  | cons p rest ih => obtain ⟨now, dur⟩ := p; simp [enqueueEntries, ih]

theorem enqueueEntries_get (c : ℚ) (ops : List (ℚ × ℚ)) (i : ℕ) (h : i < ops.length)
    (h' : i < (enqueueEntries c ops).length) :
    (enqueueEntries c ops).get ⟨i, h'⟩ =
      ⟨max (ops.get ⟨i, h⟩).1 (enqueueCursor c (ops.take i)),
       (ops.get ⟨i, h⟩).2⟩ := by
  induction ops generalizing c i with
  | nil => simp at h
  | cons p rest ih =>
      obtain ⟨now, dur⟩ := p
      cases i with
      | zero => simp [enqueueEntries, enqueueCursor]
      | succ j =>
          simp only [enqueueEntries, List.get_cons_succ, List.take_succ_cons,
            enqueueCursor]
          exact ih _ _ (by simpa using h) (by simpa [enqueueEntries_length] using h')

theorem enqueueCursor_take_succ (c : ℚ) (ops : List (ℚ × ℚ)) (i : ℕ) (h : i < ops.length) :
    enqueueCursor c (ops.take (i + 1)) =
      max (ops.get ⟨i, h⟩).1 (enqueueCursor c (ops.take i)) + (ops.get ⟨i, h⟩).2 := by
  induction ops generalizing c i with
  | nil => simp at h
  | cons p rest ih =>
      obtain ⟨now, dur⟩ := p
      cases i with
      | zero => simp [enqueueCursor]
      | succ j =>
          simp only [List.take_succ_cons, enqueueCursor, List.get_cons_succ]
          exact ih _ _ (by simpa using h)

theorem jsSplitOnChar_cons_self (sep : Char) (cs : List Char) :
    jsSplitOnChar sep (sep :: cs) = [] :: jsSplitOnChar sep cs := by
  simp [jsSplitOnChar]

theorem jsSplitOnChar_cons_ne (sep c : Char) (cs : List Char) (h : c ≠ sep)
    (p : List Char) (ps : List (List Char)) (hps : jsSplitOnChar sep cs = p :: ps) :
    jsSplitOnChar sep (c :: cs) = (c :: p) :: ps := by
  simp only [jsSplitOnChar, if_neg h, hps]

theorem jsSplitOnChar_ne_nil (sep : Char) (s : List Char) : jsSplitOnChar sep s ≠ [] := by
  induction s with
  | nil => simp [jsSplitOnChar]
  | cons c cs ih =>
      by_cases hc : c = sep
      · subst hc
        rw [jsSplitOnChar_cons_self]
        simp
      · obtain ⟨p, ps, hps⟩ := List.exists_cons_of_ne_nil ih
        rw [jsSplitOnChar_cons_ne sep c cs hc p ps hps]
        simp

theorem jsSplitOnChar_of_not_mem (sep : Char) (s : List Char) (h : sep ∉ s) :
    jsSplitOnChar sep s = [s] := by
  induction s with
  | nil => rfl
  | cons c cs ih =>
      have hc : c ≠ sep := fun hcs => h (hcs ▸ List.mem_cons_self c cs)
      have hcs : sep ∉ cs := fun hm => h (List.mem_cons_of_mem c hm)
      rw [jsSplitOnChar_cons_ne sep c cs hc cs [] (ih hcs)]

theorem jsSplitOnChar_length_ge_two (sep : Char) (a b : List Char) :
    2 ≤ (jsSplitOnChar sep (a ++ sep :: b)).length := by
  induction a with
  | nil =>
      rw [List.nil_append, jsSplitOnChar_cons_self]
      have h1 : 1 ≤ (jsSplitOnChar sep b).length :=
        List.length_pos.mpr (jsSplitOnChar_ne_nil sep b)
      simp only [List.length_cons]
      omega
  | cons c cs ih =>
      rw [List.cons_append]
      by_cases hc : c = sep
      · rw [hc, jsSplitOnChar_cons_self]
        have h1 : 1 ≤ (jsSplitOnChar sep (cs ++ sep :: b)).length :=
          List.length_pos.mpr (jsSplitOnChar_ne_nil sep (cs ++ sep :: b))
        simp only [List.length_cons]
        omega
      · obtain ⟨p, ps, hps⟩ :=
          List.exists_cons_of_ne_nil (jsSplitOnChar_ne_nil sep (cs ++ sep :: b))
        rw [jsSplitOnChar_cons_ne sep c _ hc p ps hps]
        rw [hps] at ih
        simp only [List.length_cons] at ih ⊢
        omega

theorem jsSplitOnChar_getLast?_append (sep : Char) (a b : List Char) :
    (jsSplitOnChar sep (a ++ sep :: b)).getLast? = (jsSplitOnChar sep b).getLast? := by
  induction a with
  | nil =>
      rw [List.nil_append, jsSplitOnChar_cons_self]
      obtain ⟨p, ps, hps⟩ := List.exists_cons_of_ne_nil (jsSplitOnChar_ne_nil sep b)
      rw [hps, List.getLast?_cons_cons]
  | cons c cs ih =>
      rw [List.cons_append]
      by_cases hc : c = sep
      · rw [hc, jsSplitOnChar_cons_self]
        obtain ⟨p, ps, hps⟩ :=
          List.exists_cons_of_ne_nil (jsSplitOnChar_ne_nil sep (cs ++ sep :: b))
        rw [hps, List.getLast?_cons_cons, ← hps, ih]
      · obtain ⟨p, ps, hps⟩ :=
          List.exists_cons_of_ne_nil (jsSplitOnChar_ne_nil sep (cs ++ sep :: b))
        have hlen := jsSplitOnChar_length_ge_two sep cs b
        rw [hps] at hlen
        obtain ⟨q, qs, hqs⟩ : ∃ q qs, ps = q :: qs := by
          cases ps with
          | nil => simp at hlen
          | cons q qs => exact ⟨q, qs, rfl⟩
        subst hqs
        rw [jsSplitOnChar_cons_ne sep c _ hc p (q :: qs) hps]
        rw [hps, List.getLast?_cons_cons] at ih
        rw [List.getLast?_cons_cons]
        exact ih

/-- Claim C1 (amended): each enqueue schedules its entry at
`max(now, nextPlayTime)` and advances the cursor to `start + duration`;
consecutive entries neither overlap (`start[i+1] ≥ start[i] + dur[i]`) nor
leave an unnecessary gap (`start[i+1] ≤ max(now[i+1], start[i] + dur[i])`);
and immediately after each enqueue of a nonnegative-duration chunk the
cursor is at least the clock value observed at that call. -/
theorem C1_playback_scheduling (ops : List (ℚ × ℚ)) :
    ((runEnqueues initScheduler ops).queue.length = ops.length)
    ∧ (∀ now dur s, (playAudioChunk now dur s).queue.getLast? =
          some ⟨max now s.nextPlayTime, dur⟩
        ∧ (playAudioChunk now dur s).nextPlayTime = max now s.nextPlayTime + dur)
    ∧ (∀ i : ℕ, ∀ e1 e2 : PlaybackEntry,
        (runEnqueues initScheduler ops).queue[i]? = some e1 →
        (runEnqueues initScheduler ops).queue[i + 1]? = some e2 →
        e1.scheduledStart + e1.duration ≤ e2.scheduledStart)
    ∧ (∀ i : ℕ, ∀ e1 e2 : PlaybackEntry, ∀ p : ℚ × ℚ,
        (runEnqueues initScheduler ops).queue[i]? = some e1 →
        (runEnqueues initScheduler ops).queue[i + 1]? = some e2 →
        ops[i + 1]? = some p →
        e2.scheduledStart ≤ max p.1 (e1.scheduledStart + e1.duration))
    ∧ (∀ i : ℕ, ∀ p : ℚ × ℚ, ops[i]? = some p → 0 ≤ p.2 →
        p.1 ≤ (runEnqueues initScheduler (ops.take (i + 1))).nextPlayTime) := by
  have hrun : runEnqueues initScheduler ops =
      ⟨enqueueCursor 0 ops, enqueueEntries 0 ops⟩ := by
    simpa using runEnqueues_eq 0 [] ops
  have hkey : ∀ i : ℕ, ∀ h : i < ops.length, ∀ h2 : i < (enqueueEntries 0 ops).length,
      (enqueueEntries 0 ops).get ⟨i, h2⟩ =
        ⟨max (ops.get ⟨i, h⟩).1 (enqueueCursor 0 (ops.take i)), (ops.get ⟨i, h⟩).2⟩ := by
    intro i h h2
    exact enqueueEntries_get 0 ops i h h2
  refine ⟨by rw [hrun]; exact enqueueEntries_length 0 ops, ?_, ?_, ?_, ?_⟩
  · intro now dur s
    constructor
    · simp [playAudioChunk]
    · rfl
  · intro i e1 e2 h1 h2
    rw [hrun] at h1 h2
    simp only [List.getElem?_eq_some] at h1 h2
    obtain ⟨hb1, he1⟩ := h1
    obtain ⟨hb2, he2⟩ := h2
    have hi1 : i + 1 < ops.length := by rwa [enqueueEntries_length] at hb2
    have hi0 : i < ops.length := Nat.lt_of_succ_lt hi1
    have g1 := hkey i hi0 hb1
    have g2 := hkey (i + 1) hi1 hb2
    rw [List.get_eq_getElem] at g1 g2
    rw [he1] at g1
    rw [he2] at g2
    rw [g1, g2]
    have hc := enqueueCursor_take_succ 0 ops i hi0
    simp only [hc]
    exact le_max_right _ _
  · intro i e1 e2 p h1 h2 hp
    rw [hrun] at h1 h2
    simp only [List.getElem?_eq_some] at h1 h2 hp
    obtain ⟨hb1, he1⟩ := h1
    obtain ⟨hb2, he2⟩ := h2
    obtain ⟨hbp, hep⟩ := hp
    have hi1 : i + 1 < ops.length := by rwa [enqueueEntries_length] at hb2
    have hi0 : i < ops.length := Nat.lt_of_succ_lt hi1
    have g1 := hkey i hi0 hb1
    have g2 := hkey (i + 1) hi1 hb2
    rw [List.get_eq_getElem] at g1 g2
    rw [he1] at g1
    rw [he2] at g2
    rw [g1, g2]
    have hc := enqueueCursor_take_succ 0 ops i hi0
    simp only [hc, List.get_eq_getElem, hep]
    exact le_rfl
  · intro i p hp hd
    simp only [List.getElem?_eq_some] at hp
    obtain ⟨hb, he⟩ := hp
    have hc := enqueueCursor_take_succ 0 ops i hb
    have hrun' : runEnqueues initScheduler (ops.take (i + 1)) =
        ⟨enqueueCursor 0 (ops.take (i + 1)), enqueueEntries 0 (ops.take (i + 1))⟩ := by
      simpa using runEnqueues_eq 0 [] (ops.take (i + 1))
    rw [hrun', hc]
    have h1 : p.1 ≤ max (ops.get ⟨i, hb⟩).1 (enqueueCursor 0 (ops.take i)) := by
      rw [List.get_eq_getElem, he]
      exact le_max_left _ _
    have h2 : (0:ℚ) ≤ (ops.get ⟨i, hb⟩).2 := by
      rw [List.get_eq_getElem, he]
      exact hd
    calc p.1 ≤ max (ops.get ⟨i, hb⟩).1 (enqueueCursor 0 (ops.take i)) := h1
      _ ≤ max (ops.get ⟨i, hb⟩).1 (enqueueCursor 0 (ops.take i)) + (ops.get ⟨i, hb⟩).2 :=
          le_add_of_nonneg_right h2

/-- Witness for C1: the trace `[(0,1),(2,1)]` (a one-second gap before the
second call) instantiates every conjunct concretely. -/
theorem C1_playback_scheduling_witness :
    ((runEnqueues initScheduler [((0:ℚ),(1:ℚ)),(2,1)]).queue.length = 2)
    ∧ ((⟨0, 1⟩ : PlaybackEntry).scheduledStart + (⟨0, 1⟩ : PlaybackEntry).duration ≤
        (⟨2, 1⟩ : PlaybackEntry).scheduledStart)
    ∧ ((⟨2, 1⟩ : PlaybackEntry).scheduledStart ≤
        max (2:ℚ) ((⟨0, 1⟩ : PlaybackEntry).scheduledStart + (⟨0, 1⟩ : PlaybackEntry).duration))
    ∧ ((2:ℚ) ≤ (runEnqueues initScheduler ([((0:ℚ),(1:ℚ)),(2,1)].take 2)).nextPlayTime) := by
  have h := C1_playback_scheduling [((0:ℚ),(1:ℚ)),(2,1)]
  refine ⟨h.1, ?_, ?_, ?_⟩
  · exact h.2.2.1 0 ⟨0, 1⟩ ⟨2, 1⟩ (by norm_num [runEnqueues, playAudioChunk, initScheduler])
      (by norm_num [runEnqueues, playAudioChunk, initScheduler])
  · exact h.2.2.2.1 0 ⟨0, 1⟩ ⟨2, 1⟩ (2, 1)
      (by norm_num [runEnqueues, playAudioChunk, initScheduler])
      (by norm_num [runEnqueues, playAudioChunk, initScheduler]) rfl
  · exact h.2.2.2.2 1 (2, 1) rfl (by norm_num)

/-- Counterexample for C1 as stated: after enqueueing a one-second chunk at
clock 0, the cursor is 1; a later call observing clock value 5 (monotone,
nonnegative durations) finds the cursor strictly behind the clock, so
`nextPlayTime` is not always ≥ the output clock's current time. -/
theorem C1_cursor_behind_clock_counterexample : ¬ nextPlayTimeAlwaysAtLeastClock := by
  intro h
  have h5 := h [(0, 1), (5, 1)]
    (by norm_num [List.chain'_cons])
    (by intro p hp; simp at hp; rcases hp with h' | h' <;> simp [h'])
    1 (5, 1) rfl
  norm_num [runEnqueues, playAudioChunk, initScheduler] at h5

/-- Claim C8: flushing twice leaves the same empty state as flushing once
(queue empty, cursor equal to the output clock's current time), and the
first enqueue after a flush starts at the clock value current at that
enqueue. -/
theorem C8_flush_idempotent (s : SchedulerState) (t now dur : ℚ) :
    clearAudioQueue t (clearAudioQueue t s) = clearAudioQueue t s
    ∧ (clearAudioQueue t s).queue = []
    ∧ (clearAudioQueue t s).nextPlayTime = t
    ∧ (t ≤ now →
        (playAudioChunk now dur (clearAudioQueue t s)).queue = [⟨now, dur⟩]
        ∧ (playAudioChunk now dur (clearAudioQueue t s)).nextPlayTime = now + dur) := by
  refine ⟨rfl, rfl, rfl, fun h => ⟨?_, ?_⟩⟩ <;>
    simp [playAudioChunk, clearAudioQueue, max_eq_left h]

/-- Witness for C8 at a concrete state and clock values. -/
theorem C8_flush_idempotent_witness :
    clearAudioQueue 0 (clearAudioQueue 0 initScheduler) = clearAudioQueue 0 initScheduler
    ∧ (clearAudioQueue 0 initScheduler).queue = []
    ∧ (clearAudioQueue 0 initScheduler).nextPlayTime = 0
    ∧ ((playAudioChunk 1 2 (clearAudioQueue 0 initScheduler)).queue = [⟨1, 2⟩]
       ∧ (playAudioChunk 1 2 (clearAudioQueue 0 initScheduler)).nextPlayTime = 1 + 2) :=
  ⟨(C8_flush_idempotent initScheduler 0 1 2).1,
   (C8_flush_idempotent initScheduler 0 1 2).2.1,
   (C8_flush_idempotent initScheduler 0 1 2).2.2.1,
   (C8_flush_idempotent initScheduler 0 1 2).2.2.2 (by norm_num)⟩

/-- Claim C2: with a delimiter present, `cleanTranscript` keeps exactly the
trimmed substring strictly after the last `'»'`; with no delimiter the
result is empty, so an AI item with undelimited text displays as empty
(suppressed), while the reconciler state retains the raw text unchanged;
and the spec's concrete example renders as `"Hi there"`. -/
theorem C2_fencing_filter :
    (∀ a b : List Char, '»' ∉ b →
        cleanTranscript (a ++ '»' :: b) = trimChars b)
    ∧ (∀ s : List Char, '»' ∉ s → cleanTranscript s = [])
    ∧ (∀ it : TranscriptItem, it.source = Source.AI → '»' ∉ it.text →
        displayedText it = [])
    ∧ (∀ (now : ℤ) (txt : List Char), trimChars txt ≠ [] →
        runEvents [TEvent.aiUpdate now (some txt) none] [] =
          [⟨now, Source.AI, txt, some [], now, false⟩])
    ∧ cleanTranscript ("plan: do X » Hi there".data) = "Hi there".data := by
  have h2 : ∀ s : List Char, '»' ∉ s → cleanTranscript s = [] := by
    intro s hs
    have hc : s.contains '»' = false := by simpa using hs
    unfold cleanTranscript
    by_cases h0 : s = []
    · simp [h0]
    · rw [if_neg h0, if_neg]
      simpa using hs
  refine ⟨?_, h2, ?_, ?_, by decide⟩
  · intro a b hb
    have hne : a ++ '»' :: b ≠ [] := by simp
    have hmem : '»' ∈ a ++ '»' :: b := List.mem_append_right _ (List.mem_cons_self _ _)
    have hc : (a ++ '»' :: b).contains '»' = true := by simp [hmem]
    unfold cleanTranscript
    rw [if_neg hne, if_pos hc, jsSplitOnChar_getLast?_append,
      jsSplitOnChar_of_not_mem _ _ hb]
    rfl
  · intro it h1 hmem
    unfold displayedText
    rw [if_pos h1]
    exact h2 it.text hmem
  · intro now txt htrim
    have htxtne : txt ≠ [] := by
      intro h
      rw [h] at htrim
      exact htrim rfl
    have hempty : txt.isEmpty = false := by simpa using htxtne
    have htrimempty : (trimChars txt).isEmpty = false := by simpa using htrim
    simp [runEvents, applyEvent, updateCurrentAiTranscript, hempty, htrimempty,
      jsTruthyChunk, jsTruthyText]

/-- Witness for C2 at concrete strings and a concrete transcript event. -/
theorem C2_fencing_filter_witness :
    cleanTranscript ("x".data ++ '»' :: " y".data) = trimChars " y".data
    ∧ cleanTranscript ("no fence".data) = []
    ∧ runEvents [TEvent.aiUpdate 7 (some "hi".data) none] [] =
        [⟨7, Source.AI, "hi".data, some [], 7, false⟩] :=
  ⟨C2_fencing_filter.1 "x".data " y".data (by decide),
   C2_fencing_filter.2.1 "no fence".data (by decide),
   C2_fencing_filter.2.2.2.1 7 "hi".data (by decide)⟩

/-- Claim C3: the spec's three-event trace produces exactly one complete AI
item with text `"Hello world"`; in general an AI partial event whose target
tail is an incomplete AI item appends text / audio in place, and a
turn-complete signal marks the tail AI item complete. -/
theorem C3_transcript_merge :
    (runEvents [TEvent.aiUpdate 0 (some "Hello".data) none,
                TEvent.aiUpdate 1 (some " world".data) none,
                TEvent.aiFinalize] [] =
      [⟨0, Source.AI, "Hello world".data, some [], 0, true⟩])
    ∧ (∀ (now : ℤ) (txt : List Char) (prev : List TranscriptItem)
        (last : TranscriptItem),
        prev.getLast? = some last → last.source = Source.AI →
        last.isComplete = false → trimChars txt ≠ [] →
        updateCurrentAiTranscript now (some txt) none prev =
          prev.dropLast ++ [{ last with text := last.text ++ txt }])
    ∧ (∀ (now : ℤ) (ch : String) (prev : List TranscriptItem)
        (last : TranscriptItem),
        prev.getLast? = some last → last.source = Source.AI →
        last.isComplete = false → ch ≠ "" →
        updateCurrentAiTranscript now none (some ch) prev =
          prev.dropLast ++ [{ last with
            audioChunks := some ((last.audioChunks.getD []) ++ [ch]) }])
    ∧ (∀ (prev : List TranscriptItem) (last : TranscriptItem),
        prev.getLast? = some last → last.source = Source.AI →
        finalizeAiTranscript prev = prev.dropLast ++ [{ last with isComplete := true }]) := by
  refine ⟨by decide, ?_, ?_, ?_⟩
  · intro now txt prev last hL hAI hInc htrim
    have htxtne : txt ≠ [] := by
      intro h
      rw [h] at htrim
      exact htrim rfl
    have hempty : txt.isEmpty = false := by simpa using htxtne
    have htrimempty : (trimChars txt).isEmpty = false := by simpa using htrim
    simp [updateCurrentAiTranscript, hL, hAI, hInc, hempty, htrimempty,
      jsTruthyChunk, jsTruthyText]
  · intro now ch prev last hL hAI hInc hch
    have hchempty : ch.isEmpty = false := by
      cases hemp : ch.isEmpty
      · rfl
      · exact absurd ((String.isEmpty_iff ch).mp hemp) hch
    simp [updateCurrentAiTranscript, hL, hAI, hInc, hchempty,
      jsTruthyChunk, jsTruthyText]
  · intro prev last hL hAI
    simp [finalizeAiTranscript, hL, hAI]

/-- Witness for C3 at a concrete one-item transcript. -/
theorem C3_transcript_merge_witness :
    updateCurrentAiTranscript 5 (some "b".data) none
        [⟨0, Source.AI, "a".data, some [], 0, false⟩] =
      [⟨0, Source.AI, "ab".data, some [], 0, false⟩]
    ∧ updateCurrentAiTranscript 6 none (some "QUJD")
        [⟨0, Source.AI, "a".data, some [], 0, false⟩] =
      [⟨0, Source.AI, "a".data, some ["QUJD"], 0, false⟩]
    ∧ finalizeAiTranscript [⟨0, Source.AI, "a".data, some [], 0, false⟩] =
      [⟨0, Source.AI, "a".data, some [], 0, true⟩] := by
  refine ⟨?_, ?_, ?_⟩
  · have h := C3_transcript_merge.2.1 5 "b".data
      [⟨0, Source.AI, "a".data, some [], 0, false⟩]
      ⟨0, Source.AI, "a".data, some [], 0, false⟩ rfl rfl rfl (by decide)
    simpa using h
  · have h := C3_transcript_merge.2.2.1 6 "QUJD"
      [⟨0, Source.AI, "a".data, some [], 0, false⟩]
      ⟨0, Source.AI, "a".data, some [], 0, false⟩ rfl rfl rfl (by decide)
    simpa using h
  · have h := C3_transcript_merge.2.2.2
      [⟨0, Source.AI, "a".data, some [], 0, false⟩]
      ⟨0, Source.AI, "a".data, some [], 0, false⟩ rfl rfl
    simpa using h

/-- Claim C5: a user partial-text event merges into the tail item exactly
when the tail is a USER item with `now - timestamp < 3000`; otherwise a new
USER item is appended.  Two events 500 ms apart coalesce into one item, two
events 4000 ms apart produce two items. -/
theorem C5_user_coalescing :
    (∀ (now : ℤ) (txt : List Char) (prev : List TranscriptItem)
      (last : TranscriptItem), prev.getLast? = some last →
      ((last.source = Source.USER ∧ now - last.timestamp < 3000) →
        handleUserTranscript now txt prev =
          prev.dropLast ++ [{ last with text := last.text ++ txt }])
      ∧ (¬(last.source = Source.USER ∧ now - last.timestamp < 3000) →
        handleUserTranscript now txt prev =
          prev ++ [⟨now, Source.USER, txt, none, now, true⟩]))
    ∧ (runEvents [TEvent.userText 0 "a".data, TEvent.userText 500 "b".data] [] =
        [⟨0, Source.USER, "ab".data, none, 0, true⟩])
    ∧ (runEvents [TEvent.userText 0 "a".data, TEvent.userText 4000 "b".data] [] =
        [⟨0, Source.USER, "a".data, none, 0, true⟩,
         ⟨4000, Source.USER, "b".data, none, 4000, true⟩]) := by
  refine ⟨?_, by decide, by decide⟩
  intro now txt prev last hL
  constructor
  · intro hcond
    simp only [handleUserTranscript, hL]
    rw [if_pos hcond]
  · intro hcond
    simp only [handleUserTranscript, hL]
    rw [if_neg hcond]

/-- Witness for C5: both directions at a concrete one-item transcript. -/
theorem C5_user_coalescing_witness :
    handleUserTranscript 500 "b".data [⟨0, Source.USER, "a".data, none, 0, true⟩] =
      [⟨0, Source.USER, "ab".data, none, 0, true⟩]
    ∧ handleUserTranscript 4000 "b".data [⟨0, Source.USER, "a".data, none, 0, true⟩] =
      [⟨0, Source.USER, "a".data, none, 0, true⟩,
       ⟨4000, Source.USER, "b".data, none, 4000, true⟩] := by
  constructor
  · have h := (C5_user_coalescing.1 500 "b".data
      [⟨0, Source.USER, "a".data, none, 0, true⟩]
      ⟨0, Source.USER, "a".data, none, 0, true⟩ rfl).1 ⟨rfl, by decide⟩
    simpa using h
  · have h := (C5_user_coalescing.1 4000 "b".data
      [⟨0, Source.USER, "a".data, none, 0, true⟩]
      ⟨0, Source.USER, "a".data, none, 0, true⟩ rfl).2 (by decide)
    simpa using h

theorem dropLast_concat_getLast? (s : List TranscriptItem) (last : TranscriptItem)
    (h : s.getLast? = some last) : s = s.dropLast ++ [last] := by
  cases s with
  | nil => simp at h
  | cons a t =>
      have hne : (a :: t) ≠ [] := by simp
      rw [List.getLast?_eq_getLast _ hne] at h
      have h2 : (a :: t).getLast hne = last := by injection h
      rw [← h2]
      exact (List.dropLast_append_getLast hne).symm

theorem getElem?_dropLast_of_lt {α : Type} (l : List α) (i : ℕ) (h : i + 1 < l.length) :
    l.dropLast[i]? = l[i]? := by
  have h1 : i < l.dropLast.length := by
    simp only [List.length_dropLast]
    omega
  have h2 : i < l.length := by omega
  rw [List.getElem?_eq_getElem h1, List.getElem?_eq_getElem h2, List.getElem_dropLast]

theorem getElem?_replaceLast_of_ne_last {α : Type} (s : List α) (y : α) (i : ℕ) (it : α)
    (hsome : s[i]? = some it) (hne : i + 1 ≠ s.length) :
    (s.dropLast ++ [y])[i]? = some it := by
  have hi : i < s.length := (List.getElem?_eq_some.mp hsome).1
  have hi1 : i + 1 < s.length := by omega
  rw [List.getElem?_append_left (by simp only [List.length_dropLast]; omega),
    getElem?_dropLast_of_lt s i hi1]
  exact hsome

theorem getElem?_replaceLast_last {α : Type} (s : List α) (y : α) (_h : s ≠ []) :
    (s.dropLast ++ [y])[s.length - 1]? = some y := by
  have hlen : s.dropLast.length = s.length - 1 := by simp [List.length_dropLast]
  rw [← hlen]
  exact List.getElem?_concat_length _ _

theorem getElem?_last_eq {α : Type} (s : List α) (last : α) (i : ℕ) (it : α)
    (hL : s.getLast? = some last) (hsome : s[i]? = some it) (heq : i + 1 = s.length) :
    it = last := by
  rw [List.getLast?_eq_getElem?] at hL
  have hidx : s.length - 1 = i := by omega
  rw [hidx, hsome] at hL
  injection hL with h

theorem setComplete_eq_self (it : TranscriptItem) (h : it.isComplete = true) :
    { it with isComplete := true } = it := by
  obtain ⟨a, b, c, d, e, f⟩ := it
  simp only at h
  rw [h]

/-- Case shape of `updateCurrentAiTranscript`: unchanged, append a fresh
incomplete AI item (only when the tail is not an open AI item), or replace
an open AI tail by an open AI item. -/
theorem updateCurrentAiTranscript_shape (now : ℤ) (t : Option (List Char))
    (c : Option String) (s : List TranscriptItem) :
    updateCurrentAiTranscript now t c s = s
    ∨ (∃ y : TranscriptItem, y.source = Source.AI ∧ y.isComplete = false ∧
        updateCurrentAiTranscript now t c s = s ++ [y]
        ∧ (∀ last, s.getLast? = some last →
            last.source = Source.USER ∨ last.isComplete = true))
    ∨ (∃ last y : TranscriptItem, s.getLast? = some last ∧ last.source = Source.AI ∧
        last.isComplete = false ∧ y.source = Source.AI ∧ y.isComplete = false ∧
        updateCurrentAiTranscript now t c s = s.dropLast ++ [y]) := by
  unfold updateCurrentAiTranscript
  split
  · exact Or.inl rfl
  · split
    · next last heq =>
        split
        · next hcond =>
            refine Or.inr (Or.inr ⟨last, _, heq, hcond.1, hcond.2, ?_, ?_, rfl⟩)
            · exact hcond.1
            · exact hcond.2
        · next hcond =>
            refine Or.inr (Or.inl ⟨_, rfl, rfl, rfl, ?_⟩)
            intro lp hlp
            rw [heq] at hlp
            injection hlp with h'
            rw [← h']
            cases hsrc : last.source
            · exact Or.inl rfl
            · right
              rcases Classical.em (last.isComplete = true) with hc | hc
              · exact hc
              · exact absurd ⟨hsrc, by simpa using hc⟩ hcond
    · next heq =>
        refine Or.inr (Or.inl ⟨_, rfl, rfl, rfl, ?_⟩)
        intro last' hlast'
        rw [heq] at hlast'
        cases hlast'

/-- Case shape of `finalizeAiTranscript`: unchanged, or the AI tail is
replaced by its completed copy. -/
theorem finalizeAiTranscript_shape (s : List TranscriptItem) :
    finalizeAiTranscript s = s
    ∨ (∃ last, s.getLast? = some last ∧ last.source = Source.AI ∧
        finalizeAiTranscript s = s.dropLast ++ [{ last with isComplete := true }]) := by
  unfold finalizeAiTranscript
  split
  · next last heq =>
      split
      · next hAI => exact Or.inr ⟨last, heq, hAI, rfl⟩
      · exact Or.inl rfl
  · exact Or.inl rfl

/-- Case shape of `handleUserTranscript`: append a fresh completed USER
item, or merge into a USER tail. -/
theorem handleUserTranscript_shape (now : ℤ) (txt : List Char)
    (s : List TranscriptItem) :
    (∃ y : TranscriptItem, y.source = Source.USER ∧ y.isComplete = true ∧
        handleUserTranscript now txt s = s ++ [y])
    ∨ (∃ last, s.getLast? = some last ∧ last.source = Source.USER ∧
        handleUserTranscript now txt s =
          s.dropLast ++ [{ last with text := last.text ++ txt }]) := by
  unfold handleUserTranscript
  split
  · next last heq =>
      split
      · next hcond => exact Or.inr ⟨last, heq, hcond.1, rfl⟩
      · exact Or.inl ⟨_, rfl, rfl, rfl⟩
  · exact Or.inl ⟨_, rfl, rfl, rfl⟩

theorem transcriptInv_append (s : List TranscriptItem) (y : TranscriptItem)
    (h : TranscriptInv s)
    (htail : ∀ last, s.getLast? = some last → last.isComplete = true)
    (hy : y.source = Source.USER → y.isComplete = true) :
    TranscriptInv (s ++ [y]) := by
  constructor
  · intro i it hi hsome
    simp only [List.length_append, List.length_cons, List.length_nil] at hi
    have hi' : i < s.length := by omega
    rw [List.getElem?_append_left hi'] at hsome
    rcases Nat.lt_or_ge (i + 1) s.length with hlt | hge
    · exact h.1 i it hlt hsome
    · have hidx : s.length - 1 = i := by omega
      have hgl : s.getLast? = some it := by
        rw [List.getLast?_eq_getElem?, hidx]
        exact hsome
      exact htail it hgl
  · intro it hit
    rcases List.mem_append.mp hit with hin | hin
    · exact h.2 it hin
    · rw [List.mem_singleton.mp hin]
      exact hy

theorem transcriptInv_replaceLast (l : List TranscriptItem) (x y : TranscriptItem)
    (h : TranscriptInv (l ++ [x]))
    (hy : y.source = Source.USER → y.isComplete = true) :
    TranscriptInv (l ++ [y]) := by
  constructor
  · intro i it hi hsome
    simp only [List.length_append, List.length_cons, List.length_nil] at hi
    have hi' : i < l.length := by omega
    rw [List.getElem?_append_left hi'] at hsome
    apply h.1 i it
    · simp only [List.length_append, List.length_cons, List.length_nil]
      omega
    · rw [List.getElem?_append_left hi']
      exact hsome
  · intro it hit
    rcases List.mem_append.mp hit with hin | hin
    · exact h.2 it (List.mem_append_left _ hin)
    · rw [List.mem_singleton.mp hin]
      exact hy

theorem transcriptInv_tail (x : TranscriptItem) (rest : List TranscriptItem)
    (h : TranscriptInv (x :: rest)) : TranscriptInv rest := by
  constructor
  · intro i it hi hsome
    apply h.1 (i + 1) it
    · simp only [List.length_cons]
      omega
    · rw [List.getElem?_cons_succ]
      exact hsome
  · intro it hit
    exact h.2 it (List.mem_cons_of_mem x hit)

theorem tailComplete_of_not_open (s : List TranscriptItem) (h : TranscriptInv s)
    (hopen : tailOpenAI s = false) :
    ∀ last, s.getLast? = some last → last.isComplete = true := by
  intro last hL
  unfold tailOpenAI at hopen
  rw [hL] at hopen
  cases hsrc : last.source
  · exact h.2 last (List.mem_of_mem_getLast? hL) hsrc
  · simpa [hsrc] using hopen

theorem updateCurrentAiTranscript_inv (now : ℤ) (t : Option (List Char))
    (c : Option String) (s : List TranscriptItem) (h : TranscriptInv s) :
    TranscriptInv (updateCurrentAiTranscript now t c s) := by
  rcases updateCurrentAiTranscript_shape now t c s with heq |
    ⟨y, hysrc, _, heq, htail⟩ | ⟨last, y, hL, _, _, hysrc, _, heq⟩
  · rw [heq]; exact h
  · rw [heq]
    refine transcriptInv_append s y h ?_ (fun hu => by rw [hysrc] at hu; cases hu)
    intro last hlast
    rcases htail last hlast with husr | hcomp
    · exact h.2 last (List.mem_of_mem_getLast? hlast) husr
    · exact hcomp
  · rw [heq]
    have hs := dropLast_concat_getLast? s last hL
    exact transcriptInv_replaceLast s.dropLast last y (hs ▸ h)
      (fun hu => by rw [hysrc] at hu; cases hu)

theorem finalizeAiTranscript_inv (s : List TranscriptItem) (h : TranscriptInv s) :
    TranscriptInv (finalizeAiTranscript s) := by
  rcases finalizeAiTranscript_shape s with heq | ⟨last, hL, _, heq⟩
  · rw [heq]; exact h
  · rw [heq]
    have hs := dropLast_concat_getLast? s last hL
    exact transcriptInv_replaceLast s.dropLast last _ (hs ▸ h) (fun _ => rfl)

theorem handleUserTranscript_inv (now : ℤ) (txt : List Char)
    (s : List TranscriptItem) (h : TranscriptInv s) (hopen : tailOpenAI s = false) :
    TranscriptInv (handleUserTranscript now txt s) := by
  rcases handleUserTranscript_shape now txt s with ⟨y, _, hyc, heq⟩ |
    ⟨last, hL, husr, heq⟩
  · rw [heq]
    exact transcriptInv_append s y h (tailComplete_of_not_open s h hopen) (fun _ => hyc)
  · rw [heq]
    have hs := dropLast_concat_getLast? s last hL
    have hyc : ({ last with text := last.text ++ txt }).isComplete = true := by
      simp only
      exact h.2 last (List.mem_of_mem_getLast? hL) husr
    exact transcriptInv_replaceLast s.dropLast last _ (hs ▸ h) (fun _ => hyc)

theorem countIncompleteAI_le_one (s : List TranscriptItem) (h : TranscriptInv s) :
    countIncompleteAI s ≤ 1 := by
  induction s with
  | nil => simp [countIncompleteAI]
  | cons x rest ih =>
      cases rest with
      | nil =>
          have := List.countP_le_length
            (p := fun it => decide (it.source = Source.AI) && !it.isComplete)
            (l := [x])
          simpa [countIncompleteAI] using this
      | cons r rs =>
          have hx : x.isComplete = true := h.1 0 x (by simp) rfl
          have hpred : (decide (x.source = Source.AI) && !x.isComplete) = false := by
            simp [hx]
          unfold countIncompleteAI at ih ⊢
          rw [List.countP_cons, hpred]
          simpa using ih (transcriptInv_tail x (r :: rs) h)

theorem runEvents_inv (evs : List TEvent) :
    ∀ s, TranscriptInv s → UserEventsAfterClose evs s →
      TranscriptInv (runEvents evs s) := by
  induction evs with
  | nil =>
      intro s h _
      simpa [runEvents] using h
  | cons e rest ih =>
      intro s h hg
      obtain ⟨hg1, hg2⟩ := hg
      have h1 : TranscriptInv (applyEvent e s) := by
        cases e with
        | aiUpdate now t c => exact updateCurrentAiTranscript_inv now t c s h
        | aiFinalize => exact finalizeAiTranscript_inv s h
        | userText now txt => exact handleUserTranscript_inv now txt s h (hg1 rfl)
      exact ih (applyEvent e s) h1 hg2

/-- Claim C4 (amended): for traces in which user partial-text events arrive
only while no AI item is open, every reachable transcript state has at most
one incomplete AI item; and independently of any trace restriction, a
completed AI item is never changed by any later operation.  (A completed
USER item may still absorb text within the 3-second merge window, and a user
event landing mid-AI-turn can orphan the open AI item, so the unrestricted
claim fails; see the counterexample.) -/
theorem C4_transcript_invariant (evs : List TEvent) :
    (UserEventsAfterClose evs [] → countIncompleteAI (runEvents evs []) ≤ 1)
    ∧ (∀ (s : List TranscriptItem) (e : TEvent) (i : ℕ) (it : TranscriptItem),
        s[i]? = some it → it.isComplete = true → it.source = Source.AI →
        (applyEvent e s)[i]? = some it) := by
  constructor
  · intro hg
    have hinv : TranscriptInv [] := by
      constructor
      · intro i it hi
        simp at hi
      · intro it hit
        simp at hit
    exact countIncompleteAI_le_one _ (runEvents_inv evs [] hinv hg)
  · intro s e i it hsome hcomp hsrc
    have hi : i < s.length := (List.getElem?_eq_some.mp hsome).1
    rcases Classical.em (i + 1 = s.length) with htl | htl
    · -- the item sits at the tail
      cases e with
      | aiUpdate now t c =>
          simp only [applyEvent]
          rcases updateCurrentAiTranscript_shape now t c s with heq |
            ⟨y, _, _, heq, _⟩ | ⟨last, y, hL, _, hInc, _, _, heq⟩
          · rw [heq]; exact hsome
          · rw [heq, List.getElem?_append_left hi]; exact hsome
          · have := getElem?_last_eq s last i it hL hsome htl
            rw [this] at hcomp
            rw [hcomp] at hInc
            cases hInc
      | aiFinalize =>
          simp only [applyEvent]
          rcases finalizeAiTranscript_shape s with heq | ⟨last, hL, _, heq⟩
          · rw [heq]; exact hsome
          · have hit : it = last := getElem?_last_eq s last i it hL hsome htl
            have hne : s ≠ [] := by
              intro h0
              rw [h0] at hL
              simp at hL
            have hy : ({ last with isComplete := true }) = it := by
              rw [hit]
              exact setComplete_eq_self last (hit ▸ hcomp)
            rw [heq]
            have hidx : i = s.length - 1 := by omega
            rw [hidx, getElem?_replaceLast_last s _ hne, hy]
      | userText now txt =>
          simp only [applyEvent]
          rcases handleUserTranscript_shape now txt s with ⟨y, _, _, heq⟩ |
            ⟨last, hL, husr, heq⟩
          · rw [heq, List.getElem?_append_left hi]; exact hsome
          · have hit : it = last := getElem?_last_eq s last i it hL hsome htl
            rw [hit] at hsrc
            rw [hsrc] at husr
            cases husr
    · -- the item sits strictly before the tail
      cases e with
      | aiUpdate now t c =>
          simp only [applyEvent]
          rcases updateCurrentAiTranscript_shape now t c s with heq |
            ⟨y, _, _, heq, _⟩ | ⟨last, y, _, _, _, _, _, heq⟩
          · rw [heq]; exact hsome
          · rw [heq, List.getElem?_append_left hi]; exact hsome
          · rw [heq]; exact getElem?_replaceLast_of_ne_last s y i it hsome htl
      | aiFinalize =>
          simp only [applyEvent]
          rcases finalizeAiTranscript_shape s with heq | ⟨last, _, _, heq⟩
          · rw [heq]; exact hsome
          · rw [heq]
            exact getElem?_replaceLast_of_ne_last s _ i it hsome htl
      | userText now txt =>
          simp only [applyEvent]
          rcases handleUserTranscript_shape now txt s with ⟨y, _, _, heq⟩ |
            ⟨last, _, _, heq⟩
          · rw [heq, List.getElem?_append_left hi]; exact hsome
          · rw [heq]
            exact getElem?_replaceLast_of_ne_last s _ i it hsome htl

/-- Witness for C4: a concrete well-behaved trace (user speaks only after
the AI turn is finalized) and a concrete mutation-freedom instance. -/
theorem C4_transcript_invariant_witness :
    countIncompleteAI (runEvents [TEvent.aiUpdate 0 (some "a".data) none,
        TEvent.aiFinalize, TEvent.userText 1 "u".data] []) ≤ 1
    ∧ (applyEvent (TEvent.userText 10 "z".data)
        [⟨0, Source.AI, "a".data, some [], 0, true⟩])[0]? =
      some ⟨0, Source.AI, "a".data, some [], 0, true⟩ := by
  constructor
  · have hg : UserEventsAfterClose [TEvent.aiUpdate 0 (some "a".data) none,
        TEvent.aiFinalize, TEvent.userText 1 "u".data] [] := by decide
    exact (C4_transcript_invariant _).1 hg
  · exact (C4_transcript_invariant []).2
      [⟨0, Source.AI, "a".data, some [], 0, true⟩]
      (TEvent.userText 10 "z".data) 0
      ⟨0, Source.AI, "a".data, some [], 0, true⟩ rfl rfl rfl

/-- Counterexample for C4 as stated: a user event arriving while an AI item
is still open starts a new USER tail, after which the next AI partial event
opens a second AI item, so two incomplete AI items coexist. -/
theorem C4_two_open_ai_counterexample : ¬ c4AsStated := by
  intro h
  have h1 := h.1 [TEvent.aiUpdate 0 (some "a".data) none,
    TEvent.userText 1 "u".data, TEvent.aiUpdate 2 (some "b".data) none]
  have h2 : countIncompleteAI (runEvents [TEvent.aiUpdate 0 (some "a".data) none,
      TEvent.userText 1 "u".data, TEvent.aiUpdate 2 (some "b".data) none] []) = 2 := by
    decide
  rw [h2] at h1
  omega

/-- Claim C6 (code evaluation at the failing input): the second component
variant's capture tick emits the raw 4-sample block unresampled even though
its audio context runs at 24 kHz — resampling to 16 kHz would have produced
a 2-sample block, as the canonical variant's tick does. -/
theorem C6_variant2_skips_resampling :
    onAudioProcessVariant2 ⟨true, false, 0, 24000⟩ [1, 0, -1, 0] =
      some (createPcmBlob [1, 0, -1, 0])
    ∧ (createPcmBlob ([1, 0, -1, 0] : List ℚ)).sampleData.length = 4
    ∧ (downsampleTo16k [1, 0, -1, 0] 24000).length = 2
    ∧ onAudioProcess ⟨true, false, 0, 24000⟩ [1, 0, -1, 0] =
      some (createPcmBlob (downsampleTo16k [1, 0, -1, 0] 24000)) := by
  refine ⟨?_, ?_, ?_, ?_⟩
  · simp [onAudioProcessVariant2]
  · simp [createPcmBlob]
  · simp [downsampleTo16k]
  · simp [onAudioProcess]

theorem capStep_tick_micOff (dm : Bool) (tc sr : ℕ) (s : CapState) (input : List ℚ)
    (h : s.isMicOn = false) : capStep dm tc sr s (CapEvent.tick input) = s := by
  simp [capStep, onAudioProcess, h]

theorem capStep_tick_isMicOn (dm : Bool) (tc sr : ℕ) (s : CapState) (input : List ℚ) :
    (capStep dm tc sr s (CapEvent.tick input)).isMicOn = s.isMicOn := by
  cases honAudio : onAudioProcess ⟨s.isMicOn, dm, tc, sr⟩ input with
  | none => simp [capStep, honAudio]
  | some c => simp [capStep, honAudio]

theorem micOn_stays_false (dm : Bool) (tc sr : ℕ) (post : List CapEvent) :
    ∀ s : CapState, s.isMicOn = false →
      (∀ b : Bool, CapEvent.setMic b ∈ post → b = false) →
      (runCapture dm tc sr post s).isMicOn = false := by
  induction post with
  | nil =>
      intro s h _
      exact h
  | cons e rest ih =>
      intro s h hp
      have hrun : runCapture dm tc sr (e :: rest) s =
          runCapture dm tc sr rest (capStep dm tc sr s e) := rfl
      rw [hrun]
      cases e with
      | setMic b =>
          have hb : b = false := hp b (List.mem_cons_self _ _)
          apply ih
          · simp [capStep, hb]
          · intro b' hb'
            exact hp b' (List.mem_cons_of_mem _ hb')
      | tick input' =>
          apply ih
          · rw [capStep_tick_isMicOn]
            exact h
          · intro b' hb'
            exact hp b' (List.mem_cons_of_mem _ hb')

/-- Claim C7: a capture tick firing after the mute flag was set to off (with
no re-enable in between) leaves the capture state completely unchanged — no
frame is emitted and nothing is queued — because the flag is read live at
tick time; in particular a tick on any state whose live flag is off is a
no-op. -/
theorem C7_mute_live_gating (dm : Bool) (tc sr : ℕ) (pre post : List CapEvent)
    (input : List ℚ) (st : CapState) :
    ((∀ b : Bool, CapEvent.setMic b ∈ post → b = false) →
      runCapture dm tc sr ((pre ++ [CapEvent.setMic false] ++ post) ++
          [CapEvent.tick input]) st =
        runCapture dm tc sr (pre ++ [CapEvent.setMic false] ++ post) st)
    ∧ (∀ s : CapState, s.isMicOn = false →
        capStep dm tc sr s (CapEvent.tick input) = s) := by
  constructor
  · intro hp
    have hsplit : runCapture dm tc sr ((pre ++ [CapEvent.setMic false] ++ post) ++
        [CapEvent.tick input]) st =
        capStep dm tc sr (runCapture dm tc sr
          (pre ++ [CapEvent.setMic false] ++ post) st) (CapEvent.tick input) := by
      unfold runCapture
      rw [List.foldl_append]
      rfl
    rw [hsplit]
    apply capStep_tick_micOff
    have hmid : runCapture dm tc sr (pre ++ [CapEvent.setMic false] ++ post) st =
        runCapture dm tc sr post
          (runCapture dm tc sr (pre ++ [CapEvent.setMic false]) st) := by
      unfold runCapture
      simp [List.foldl_append, List.append_assoc]
    rw [hmid]
    apply micOn_stays_false dm tc sr post _ _ hp
    have hoff : runCapture dm tc sr (pre ++ [CapEvent.setMic false]) st =
        capStep dm tc sr (runCapture dm tc sr pre st) (CapEvent.setMic false) := by
      unfold runCapture
      rw [List.foldl_append]
      rfl
    rw [hoff]
    rfl
  · intro s h
    exact capStep_tick_micOff dm tc sr s input h

/-- Witness for C7: a concrete mute-then-tick trace. -/
theorem C7_mute_live_gating_witness :
    runCapture false 0 48000 (([] ++ [CapEvent.setMic false] ++ []) ++
        [CapEvent.tick [1]]) ⟨true, []⟩ =
      runCapture false 0 48000 ([] ++ [CapEvent.setMic false] ++ []) ⟨true, []⟩
    ∧ capStep false 0 48000 ⟨false, []⟩ (CapEvent.tick [1]) = ⟨false, []⟩ :=
  ⟨(C7_mute_live_gating false 0 48000 [] [] [1] ⟨true, []⟩).1
      (fun _ hb => absurd hb (List.not_mem_nil _)),
   (C7_mute_live_gating false 0 48000 [] [] [1] ⟨false, []⟩).2 ⟨false, []⟩ rfl⟩

/-- Claim C9: in demo mode, the increment that takes the counter from 9 to
10 persists a lockout timestamp (so `isLocked` holds) and schedules the
teardown 15000 ms later; the session is not stopped at the increment
itself. -/
theorem C9_quota_lockout (st : DemoState) (now : ℤ) (hd : st.isDemoMode = true)
    (hc : st.turnCount = 9) :
    (incrementDemoCount now st).turnCount = 10
    ∧ (incrementDemoCount now st).lockTime = some now
    ∧ (incrementDemoCount now st).scheduledStops =
        st.scheduledStops ++ [now + LOCKOUT_GRACE_MS]
    ∧ (incrementDemoCount now st).stopped = st.stopped
    ∧ isLocked now (incrementDemoCount now st) = true
    ∧ LOCKOUT_GRACE_MS = 15000 := by
  have h10 : st.turnCount + 1 = 10 := by omega
  refine ⟨?_, ?_, ?_, ?_, ?_, rfl⟩ <;>
    simp [incrementDemoCount, handleLockoutSequence, isLocked, hd, hc, h10]

/-- Witness for C9 at a concrete quota state. -/
theorem C9_quota_lockout_witness :
    (incrementDemoCount 100 ⟨true, 9, none, [], false⟩).turnCount = 10
    ∧ (incrementDemoCount 100 ⟨true, 9, none, [], false⟩).lockTime = some 100
    ∧ (incrementDemoCount 100 ⟨true, 9, none, [], false⟩).scheduledStops =
        [] ++ [100 + LOCKOUT_GRACE_MS]
    ∧ (incrementDemoCount 100 ⟨true, 9, none, [], false⟩).stopped = false
    ∧ isLocked 100 (incrementDemoCount 100 ⟨true, 9, none, [], false⟩) = true
    ∧ LOCKOUT_GRACE_MS = 15000 :=
  C9_quota_lockout ⟨true, 9, none, [], false⟩ 100 rfl rfl

/-- Claim C10 (amended): once the demo counter has reached 10, every capture
tick (in both component variants) emits nothing and every text submission
sends nothing and leaves the transcript unchanged; video-frame ticks,
however, are not quota-gated (see the counterexample). -/
theorem C10_demo_hard_stop (micOn sessionLive : Bool) (turnCount sampleRate : ℕ)
    (input : List ℚ) (now : ℤ) (textInput : List Char)
    (transcript : List TranscriptItem) (h : 10 ≤ turnCount) :
    onAudioProcess ⟨micOn, true, turnCount, sampleRate⟩ input = none
    ∧ onAudioProcessVariant2 ⟨micOn, true, turnCount, sampleRate⟩ input = none
    ∧ handleTextInput true turnCount sessionLive now textInput transcript =
        ⟨none, transcript⟩ := by
  refine ⟨?_, ?_, ?_⟩
  · cases micOn <;> simp [onAudioProcess, h]
  · cases micOn <;> simp [onAudioProcessVariant2, h]
  · simp [handleTextInput, h]

/-- Witness for C10 at the quota boundary. -/
theorem C10_demo_hard_stop_witness :
    onAudioProcess ⟨true, true, 10, 48000⟩ [1] = none
    ∧ onAudioProcessVariant2 ⟨true, true, 10, 48000⟩ [1] = none
    ∧ handleTextInput true 10 true 0 "hello".data [] = ⟨none, []⟩ :=
  C10_demo_hard_stop true true 10 48000 [1] 0 "hello".data [] (le_refl 10)

/-- Counterexample for C10 as stated: a video-frame tick with a live session
still sends an `image/jpeg` chunk after the counter has reached 10 — the
interval body has no quota gate. -/
theorem C10_video_frames_not_gated : ¬ c10AsStated := by
  intro h
  have h3 := (h true 10 48000 [] 0 [] [] "ZnJhbWU=" (le_refl 10)).2.2
  simp [videoFrameTick] at h3


end Spec2Proof
